import Mathlib

/-!
Verification development for the RAGTrust pipeline core
(evidence fusion, poison injection, multi-source verification,
decision engine, metrics aggregation).

Python dict-backed records are embedded as Lean structures; optional
dict entries become `Option` fields.  Real-valued scores are embedded
as rationals.  External collaborators (the NLI scorer, the Python
`random.Random(seed).sample` generator) are abstracted as function
parameters; the guaranteed properties of `random.sample` (it returns
`k` distinct indices drawn from `range(n)`) appear as hypotheses of the
theorems that need them.
-/

namespace RagTrust

/-- A Python scalar value that can sit in a passage's `is_poison` slot:
either a boolean (as written by `inject_synthetic_poison`) or a string
(as written by `Poisoner.apply_to_corpus`). -/
inductive PVal where
  | pbool (b : Bool)
  | pstr (s : String)
deriving DecidableEq, Repr

/-- A retrievable evidence unit, mirroring the passage dicts flowing
through the pipeline.  `source`, `is_poison` and `score` model dict
entries that may be absent. -/
structure Passage where
  doc_id : String
  title : String
  sent_id : String
  text : String
  source : Option String
  is_poison : Option PVal
  score : Option ℚ
deriving DecidableEq, Repr

/-- Output of the external NLI scorer: three probabilities
(`score(premise, hypothesis)` in `verification/nli.py`). -/
structure NLIScore where
  entailment : ℚ
  contradiction : ℚ
  neutral : ℚ
deriving DecidableEq, Repr

/-! ## Decision Engine (`experiment.py`, `predict_label_from_verification`) -/

/-- Decision parameters: `min_strength`, `margin`, `conflict_nei`. -/
structure DecisionParams where
  min_strength : ℚ
  margin : ℚ
  conflict_nei : Bool
deriving DecidableEq, Repr

/-- Core decision rule of `RAGTrustPipeline.predict_label_from_verification`:
the ordered if-chain mapping aggregated verification signals to a label. -/
def decideLabel (minStrength margin : ℚ) (conflictNei : Bool)
    (sEnt sCon : ℚ) (conflict : Bool) : String :=
  if conflict = true ∧ conflictNei = true then "NOT ENOUGH INFO"
  else if sCon ≥ minStrength ∧ sCon - sEnt > margin then "REFUTES"
  else if sEnt ≥ minStrength ∧ sEnt - sCon > margin then "SUPPORTS"
  else "NOT ENOUGH INFO"

/-- `predict_label_from_verification` including its dynamic-attribute
fallback for the decision parameters (`getattr(self, "decision_params",
defaults)`) and the `dict.get` defaults for the verification fields. -/
def predictLabelFromVerification (params : Option DecisionParams)
    (supportStrength contradictionStrength : Option ℚ)
    (conflict : Option Bool) : String :=
  decideLabel (params.getD ⟨3/10, 1/10, true⟩).min_strength
    (params.getD ⟨3/10, 1/10, true⟩).margin
    (params.getD ⟨3/10, 1/10, true⟩).conflict_nei
    (supportStrength.getD 0) (contradictionStrength.getD 0)
    (conflict.getD false)

/-! ## Multi-Source Verifier (`verification/verifier.py`) -/

/-- `MultiSourceVerifier._vote_from_score`: strict-dominance vote rule. -/
def voteFromScore (thrCon thrEnt : ℚ) (sc : NLIScore) : String :=
  if sc.contradiction ≥ thrCon ∧ sc.contradiction > sc.entailment then "contradict"
  else if sc.entailment ≥ thrEnt ∧ sc.entailment > sc.contradiction then "entail"
  else "neutral"

/-- Vote counters, mirroring the `votes` dict of `_analyze_single`. -/
structure Votes where
  entail : Nat
  contradict : Nat
  neutral : Nat
deriving DecidableEq, Repr

/-- `votes[vote] += 1` for the three labels produced by the vote rule. -/
def bumpVote (v : Votes) (vote : String) : Votes :=
  if vote = "entail" then { v with entail := v.entail + 1 }
  else if vote = "contradict" then { v with contradict := v.contradict + 1 }
  else if vote = "neutral" then { v with neutral := v.neutral + 1 }
  else v

/-- A per-passage record appended to `details` by `_analyze_single`. -/
structure SingleDetail where
  mode : String
  title : String
  sent_id : String
  text : String
  nli : NLIScore
  vote : String
  is_poison : PVal
deriving DecidableEq, Repr

/-- The detail record `_analyze_single` builds for one passage. -/
def singleDetail (scoreFn : String → String → NLIScore)
    (thrCon thrEnt : ℚ) (query : String) (p : Passage) : SingleDetail :=
  let sc := scoreFn p.text query
  let vote := voteFromScore thrCon thrEnt sc
  ⟨"single", p.title, p.sent_id, p.text, sc, vote,
    p.is_poison.getD (PVal.pstr "0")⟩

/-- The verification summary returned by `_analyze_single`. -/
structure VerificationResult where
  votes : Votes
  conflict : Bool
  support_strength : ℚ
  contradiction_strength : ℚ
  details : List SingleDetail
deriving DecidableEq, Repr

/-- One iteration of the `for p in passages` loop of `_analyze_single`:
score the passage, turn the score into a vote, bump the matching
counter and append the detail record. -/
def singleStep (scoreFn : String → String → NLIScore)
    (thrCon thrEnt : ℚ) (query : String)
    (acc : Votes × List SingleDetail) (p : Passage) :
    Votes × List SingleDetail :=
  let sc := scoreFn p.text query
  let vote := voteFromScore thrCon thrEnt sc
  (bumpVote acc.1 vote,
    acc.2 ++ [⟨"single", p.title, p.sent_id, p.text, sc, vote,
      p.is_poison.getD (PVal.pstr "0")⟩])

/-- `MultiSourceVerifier._analyze_single`: one NLI score per passage,
vote counting, conflict flag, normalized strengths, ordered details. -/
def analyzeSingle (scoreFn : String → String → NLIScore)
    (thrCon thrEnt : ℚ) (query : String) (passages : List Passage) :
    VerificationResult :=
  let r := passages.foldl (singleStep scoreFn thrCon thrEnt query) (⟨0, 0, 0⟩, [])
  { votes := r.1
    conflict := decide (0 < r.1.entail) && decide (0 < r.1.contradict)
    support_strength := (r.1.entail : ℚ) / ((max 1 passages.length : ℕ) : ℚ)
    contradiction_strength := (r.1.contradict : ℚ) / ((max 1 passages.length : ℕ) : ℚ)
    details := r.2 }

/-! ## Evidence Fusion (`indexing/hybrid.py`, `HybridRetriever.retrieve`) -/

/-- The composite deduplication key `(title, sent_id, text)`. -/
abbrev Key := String × String × String

/-- `(p.get("title",""), p.get("sent_id",""), p.get("text",""))`. -/
def keyOf (p : Passage) : Key := (p.title, p.sent_id, p.text)

/-- An entry of the `best` mapping: key, winning score, winning passage. -/
abbrev Entry := Key × ℚ × Passage

/-- One iteration of the merge loop:
`if key not in best or s > best[key][0]: best[key] = (s, p)`,
on an insertion-ordered association list (Python dicts preserve
insertion order; updating an existing key keeps its position, a new
key is appended at the end). -/
def updateBest : List Entry → ℚ × Passage → List Entry
  | [], sp => [(keyOf sp.2, sp.1, sp.2)]
  | e :: rest, sp =>
    if e.1 = keyOf sp.2 then
      (if sp.1 > e.2.1 then (e.1, sp.1, sp.2) :: rest else e :: rest)
    else e :: updateBest rest sp

/-- The `best` dict built by folding the merge loop over all scored pairs. -/
def buildBest (scored : List (ℚ × Passage)) : List Entry :=
  scored.foldl updateBest []

/-- Stable descending insertion by score, modelling the stable
`sorted(best.values(), key=lambda x: x[0], reverse=True)`. -/
def insertDesc (x : Entry) : List Entry → List Entry
  | [] => [x]
  | y :: ys => if y.2.1 ≤ x.2.1 then x :: y :: ys else y :: insertDesc x ys

/-- Stable sort of the entries in descending score order. -/
def sortDesc (l : List Entry) : List Entry := l.foldr insertDesc []

/-- `q = dict(p); q["score"] = s` (the winning score is attached to the
output passage; the Python code stores `str(s)`, embedded here as the
score value itself). -/
def withScore (e : Entry) : Passage := { e.2.2 with score := some e.2.1 }

/-- `HybridRetriever.retrieve` after the per-source retrieval calls:
merge all scored pairs keeping the max score per key, sort descending,
truncate to `k`, attach the winning score. -/
def fuse (scored : List (ℚ × Passage)) (k : Nat) : List Passage :=
  ((sortDesc (buildBest scored)).take k).map withScore

/-- First-match association lookup on the `best` list. -/
def lookupB (ke : Key) : List Entry → Option (ℚ × Passage)
  | [] => none
  | e :: rest => if e.1 = ke then some e.2 else lookupB ke rest

/-- The keys of the `best` association list, in insertion order. -/
def keysOf (m : List Entry) : List Key := m.map Prod.fst

/-- The winning `(score, passage)` pair for one key, replayed directly
over the scored input stream with the same keep-strictly-greater rule
as the merge loop. -/
def bestOf (ke : Key) (sc : List (ℚ × Passage)) : Option (ℚ × Passage) :=
  sc.foldl
    (fun acc sp =>
      if keyOf sp.2 = ke then
        match acc with
        | none => some sp
        | some y => if sp.1 > y.1 then some sp else some y
      else acc)
    none

/-- All scores a given composite key received across the scored inputs. -/
def keyScores (ke : Key) (sc : List (ℚ × Passage)) : List ℚ :=
  (sc.filter fun sp => keyOf sp.2 = ke).map Prod.fst

/-- Modelled from the claim's words: the maximum of a list of scores
(`none` when the key never occurs). -/
def maxScores (l : List ℚ) : Option ℚ :=
  l.foldl
    (fun acc s =>
      match acc with
      | none => some s
      | some b => some (max b s))
    none

/-! ## Poison Injector (`data/synthetic.py`, `poisoning/strategies.py`) -/

/-- `make_contradictory_passage`: strip or prepend a negation. -/
def make_contradictory_passage (text : String) : String :=
  let t := text.trim
  if t = "" then "This statement is false."
  else if (t.toLower.splitOn " not ").length ≥ 2 then t.replace " not " " "
  else "It is not true that: " ++ t

/-- Abstract interface of `random.Random(seed).sample(range(n), k)`:
seed, population size, sample size. -/
abbrev Sampler := Nat → Nat → Nat → List Nat

/-- `n_poison = max(1, int(len(out) * rate))` of `inject_synthetic_poison`
(`int` truncates; for the non-negative values arising here this is the
floor). -/
def nPoisonInject (rate : ℚ) (n : Nat) : Nat :=
  max 1 (Int.toNat ⌊(n : ℚ) * rate⌋)

/-- The index set drawn by `inject_synthetic_poison`:
`rng.sample(range(len(out)), k=max(0, min(n_poison, len(out))))`. -/
def injectIdxs (sample : Sampler) (rate : ℚ) (seed n : Nat) : List Nat :=
  sample seed n (max 0 (min (nPoisonInject rate n) n))

/-- In-place update of the element at one sampled index. -/
def markAt {α : Type} (f : α → α) (l : List α) (i : Nat) : List α :=
  match l[i]? with
  | some p => l.set i (f p)
  | none => l

/-- `for i in idxs: out[i] = transform(out[i])`. -/
def applyIdxs {α : Type} (f : α → α) (l : List α) (idxs : List Nat) :
    List α :=
  idxs.foldl (markAt f) l

/-- The corruption applied by `inject_synthetic_poison` to a selected
passage: contradict the text, set `is_poison = True` (a boolean), set
`source = "poison"`, tag the `doc_id`. -/
def injectTransform (p : Passage) : Passage :=
  { p with text := make_contradictory_passage p.text
           is_poison := some (PVal.pbool true)
           source := some "poison"
           doc_id := p.doc_id ++ "__POISON" }

/-- `inject_synthetic_poison`: copy every passage with `is_poison=False`,
draw the seeded index sample, corrupt the selected passages. -/
def injectSyntheticPoison (sample : Sampler) (rate : ℚ) (seed : Nat)
    (retrieved : List Passage) : List Passage :=
  let out := retrieved.map (fun p => { p with is_poison := some (PVal.pbool false) })
  applyIdxs injectTransform out (injectIdxs sample rate seed out.length)

/-- `Poisoner.apply`: rate guard, strategy dispatch, silent fallback. -/
def poisonerApply (sample : Sampler) (strategy : String) (rate : ℚ)
    (seed : Nat) (retrieved : List Passage) : List Passage :=
  if rate ≤ 0 then retrieved
  else if strategy = "contradictory_passage" then
    injectSyntheticPoison sample rate seed retrieved
  else retrieved

/-- `n_poison = int(len(out) * self.rate)` of `Poisoner.apply_to_corpus`
(no lower bound of 1 here, unlike `inject_synthetic_poison`). -/
def nPoisonCorpus (rate : ℚ) (n : Nat) : Nat :=
  Int.toNat ⌊(n : ℚ) * rate⌋

/-- The index set drawn by `Poisoner.apply_to_corpus`. -/
def corpusIdxs (sample : Sampler) (rate : ℚ) (seed n : Nat) : List Nat :=
  sample seed n (max 0 (min (nPoisonCorpus rate n) n))

/-- The corruption applied by `Poisoner.apply_to_corpus` to a selected
passage: contradict the text, set `is_poison = "1"` (a string), tag the
`doc_id`; the `source` field is never touched. -/
def corpusTransform (p : Passage) : Passage :=
  { p with text := make_contradictory_passage p.text
           is_poison := some (PVal.pstr "1")
           doc_id := p.doc_id ++ "__POISON" }

/-- `Poisoner.apply_to_corpus`: rate guard, copy the corpus, draw the
seeded index sample, corrupt the selected passages. -/
def poisonerApplyToCorpus (sample : Sampler) (rate : ℚ) (seed : Nat)
    (corpus : List Passage) : List Passage :=
  if rate ≤ 0 then corpus
  else applyIdxs corpusTransform corpus
    (corpusIdxs sample rate seed corpus.length)

/-- Does a passage carry the boolean-`True` poison marker written by
`inject_synthetic_poison`? -/
def isPoisonTrue (p : Passage) : Bool :=
  p.is_poison = some (PVal.pbool true)

/-! ## Metrics Aggregator (`evaluation/runner.py`, `aggregate`) -/

/-- A per-example evaluation record with its optional numeric metrics. -/
structure BatchRow where
  acc : Option ℚ
  hallucination : Option ℚ
  self_consistency : Option ℚ
deriving DecidableEq, Repr

/-- The result mapping of `aggregate`: one optional mean per tracked
metric key (`none` models the key being absent from the dict). -/
structure AggOut where
  acc : Option ℚ
  hallucination : Option ℚ
  self_consistency : Option ℚ
deriving DecidableEq, Repr

/-- `if vals: out[k] = sum(vals) / len(vals)`. -/
def meanOpt (vals : List ℚ) : Option ℚ :=
  if vals = [] then none else some (vals.sum / (vals.length : ℚ))

/-- `aggregate`: empty input yields the empty mapping; otherwise each
tracked key is averaged over the rows where it is present. -/
def aggregate (results : List BatchRow) : AggOut :=
  if results = [] then ⟨none, none, none⟩
  else
    ⟨meanOpt (results.filterMap BatchRow.acc),
     meanOpt (results.filterMap BatchRow.hallucination),
     meanOpt (results.filterMap BatchRow.self_consistency)⟩

/-! ## Concrete objects for witnesses and counterexamples -/

/-- A concrete clean passage used in witnesses and counterexamples. -/
def pA : Passage := ⟨"dA", "TA", "0", "alpha text", none, none, none⟩

/-- A second concrete clean passage. -/
def pB : Passage := ⟨"dB", "TB", "1", "beta text", none, none, none⟩

/-- A concrete sampler instantiating the abstract `random.sample`
interface in witnesses: it returns the first `k` elements of
`range(n)`, which satisfies every guarantee of `random.sample`
(`k` distinct indices drawn from `[0, n)`). -/
def sampleLo : Sampler := fun _ n k => (List.range n).take k

/-- A scored input with a duplicated key for the fusion witness: the
passage `pA` arrives from two sources with scores 2 and 5, `pB` once
with score 3. -/
def scoredEx : List (ℚ × Passage) := [(2, pA), (5, pA), (3, pB)]

/-! ## Claim C1: Decision Engine resolution order -/

/-- C1: the Decision Engine returns the label of the first matching rule —
`NOT_ENOUGH_INFO` if `conflict AND conflict_nei`; else `REFUTES` if the
contradiction strength clears `min_strength` and beats the support
strength by more than `margin`; else `SUPPORTS` symmetrically; else
`NOT_ENOUGH_INFO`.  In particular `c=0.9, s=0.1, min_strength=0.3,
margin=0.1, conflict=False` yields `REFUTES`, and `c=0.5, s=0.45,
min_strength=0.3, margin=0.1` yields `NOT_ENOUGH_INFO`. -/
theorem decideLabel_resolution_order (minS mg : ℚ) (nei : Bool)
    (sEnt sCon : ℚ) (conflict : Bool) :
    (conflict = true ∧ nei = true →
      decideLabel minS mg nei sEnt sCon conflict = "NOT ENOUGH INFO")
  ∧ (¬(conflict = true ∧ nei = true) → sCon ≥ minS ∧ sCon - sEnt > mg →
      decideLabel minS mg nei sEnt sCon conflict = "REFUTES")
  ∧ (¬(conflict = true ∧ nei = true) → ¬(sCon ≥ minS ∧ sCon - sEnt > mg) →
      sEnt ≥ minS ∧ sEnt - sCon > mg →
      decideLabel minS mg nei sEnt sCon conflict = "SUPPORTS")
  ∧ (¬(conflict = true ∧ nei = true) → ¬(sCon ≥ minS ∧ sCon - sEnt > mg) →
      ¬(sEnt ≥ minS ∧ sEnt - sCon > mg) →
      decideLabel minS mg nei sEnt sCon conflict = "NOT ENOUGH INFO")
  ∧ decideLabel (3/10) (1/10) nei (1/10) (9/10) false = "REFUTES"
  ∧ decideLabel (3/10) (1/10) nei (45/100) (5/10) conflict = "NOT ENOUGH INFO" := by
  refine ⟨fun h1 => ?_, fun h1 h2 => ?_, fun h1 h2 h3 => ?_, fun h1 h2 h3 => ?_, ?_, ?_⟩
  · rw [decideLabel, if_pos h1]
  · rw [decideLabel, if_neg h1, if_pos h2]
  · rw [decideLabel, if_neg h1, if_neg h2, if_pos h3]
  · rw [decideLabel, if_neg h1, if_neg h2, if_neg h3]
  · cases nei <;> norm_num [decideLabel]
  · cases conflict <;> cases nei <;> norm_num [decideLabel]

/-- C1 witness: the rules fire at concrete inputs — conflict with
`conflict_nei` forces `NOT_ENOUGH_INFO`, and a dominant support
strength yields `SUPPORTS`. -/
theorem decideLabel_resolution_order_witness :
    decideLabel (3/10) (1/10) true 0 0 true = "NOT ENOUGH INFO"
  ∧ decideLabel (3/10) (1/10) true (9/10) (1/10) false = "SUPPORTS" :=
  ⟨(decideLabel_resolution_order (3/10) (1/10) true 0 0 true).1 ⟨rfl, rfl⟩,
   (decideLabel_resolution_order (3/10) (1/10) true (9/10) (1/10) false).2.2.1
     (by simp) (by norm_num) (by norm_num)⟩

/-! ## Claim C2: the Verifier's strict-dominance vote rule -/

/-- C2: the vote rule returns `contradict` iff the contradiction score
clears its threshold and strictly exceeds the entailment score,
`entail` iff the entailment score clears its threshold and strictly
exceeds the contradiction score, and `neutral` in every other case. -/
theorem voteFromScore_strict_dominance (thrCon thrEnt : ℚ) (sc : NLIScore) :
    (voteFromScore thrCon thrEnt sc = "contradict" ↔
      sc.contradiction ≥ thrCon ∧ sc.contradiction > sc.entailment)
  ∧ (voteFromScore thrCon thrEnt sc = "entail" ↔
      sc.entailment ≥ thrEnt ∧ sc.entailment > sc.contradiction)
  ∧ (voteFromScore thrCon thrEnt sc = "neutral" ↔
      ¬(sc.contradiction ≥ thrCon ∧ sc.contradiction > sc.entailment) ∧
      ¬(sc.entailment ≥ thrEnt ∧ sc.entailment > sc.contradiction)) := by
  rw [voteFromScore]
  split_ifs with h1 h2
  · exact ⟨⟨fun _ => h1, fun _ => rfl⟩,
      ⟨fun h => absurd h (by decide), fun h => absurd h.2 (lt_asymm h1.2)⟩,
      ⟨fun h => absurd h (by decide), fun h => absurd h1 h.1⟩⟩
  · exact ⟨⟨fun h => absurd h (by decide), fun h => absurd h h1⟩,
      ⟨fun _ => h2, fun _ => rfl⟩,
      ⟨fun h => absurd h (by decide), fun h => absurd h2 h.2⟩⟩
  · exact ⟨⟨fun h => absurd h (by decide), fun h => absurd h h1⟩,
      ⟨fun h => absurd h (by decide), fun h => absurd h h2⟩,
      ⟨fun _ => ⟨h1, h2⟩, fun _ => rfl⟩⟩

/-! ## Claim C8: the Decision Engine is total and default-safe -/

/-- C8: for every verification input, however degenerate (missing
fields, zero strengths), `predict_label_from_verification` returns one
of the three labels; when none of the first three rules matches it
resolves to `NOT ENOUGH INFO` by the fourth branch. -/
theorem predictLabel_total_default_safe (params : Option DecisionParams)
    (ss cs : Option ℚ) (cf : Option Bool) :
    (predictLabelFromVerification params ss cs cf = "SUPPORTS" ∨
     predictLabelFromVerification params ss cs cf = "REFUTES" ∨
     predictLabelFromVerification params ss cs cf = "NOT ENOUGH INFO")
  ∧ (¬(cf.getD false = true ∧ (params.getD ⟨3/10, 1/10, true⟩).conflict_nei = true) →
     ¬(cs.getD 0 ≥ (params.getD ⟨3/10, 1/10, true⟩).min_strength ∧
        cs.getD 0 - ss.getD 0 > (params.getD ⟨3/10, 1/10, true⟩).margin) →
     ¬(ss.getD 0 ≥ (params.getD ⟨3/10, 1/10, true⟩).min_strength ∧
        ss.getD 0 - cs.getD 0 > (params.getD ⟨3/10, 1/10, true⟩).margin) →
     predictLabelFromVerification params ss cs cf = "NOT ENOUGH INFO") := by
  constructor
  · rw [predictLabelFromVerification, decideLabel]
    split_ifs
    · exact Or.inr (Or.inr rfl)
    · exact Or.inr (Or.inl rfl)
    · exact Or.inl rfl
    · exact Or.inr (Or.inr rfl)
  · intro h1 h2 h3
    rw [predictLabelFromVerification, decideLabel, if_neg h1, if_neg h2, if_neg h3]

/-- C8 witness: the fully-absent verification input (every field
missing) resolves to `NOT ENOUGH INFO` through the fourth branch. -/
theorem predictLabel_total_default_safe_witness :
    predictLabelFromVerification none none none none = "NOT ENOUGH INFO" :=
  (predictLabel_total_default_safe none none none none).2
    (by norm_num) (by norm_num) (by norm_num)

/-! ## Claim C9: the Metrics Aggregator averages present fields only -/

/-- C9: `aggregate` computes, for each tracked metric field, the mean
over exactly the rows where that field is present; the empty row list
yields the empty mapping; and
`aggregate([{acc:1.0},{acc:0.0},{hallucination:1.0}])` equals
`{acc: 0.5, hallucination: 1.0}`. -/
theorem aggregate_means_present_fields (rows : List BatchRow) :
    (aggregate rows).acc = meanOpt (rows.filterMap BatchRow.acc)
  ∧ (aggregate rows).hallucination = meanOpt (rows.filterMap BatchRow.hallucination)
  ∧ (aggregate rows).self_consistency = meanOpt (rows.filterMap BatchRow.self_consistency)
  ∧ aggregate [] = ⟨none, none, none⟩
  ∧ aggregate [⟨some 1, none, none⟩, ⟨some 0, none, none⟩, ⟨none, some 1, none⟩]
      = ⟨some (1/2), some 1, none⟩ := by
  refine ⟨?_, ?_, ?_, rfl, ?_⟩
  · cases rows <;> simp [aggregate, meanOpt]
  · cases rows <;> simp [aggregate, meanOpt]
  · cases rows <;> simp [aggregate, meanOpt]
  · simp [aggregate, meanOpt, List.filterMap]

/-! ## Claim C3: single-mode verification invariants -/

/-- The vote rule only ever produces the three expected labels. -/
lemma voteFromScore_mem (thrCon thrEnt : ℚ) (sc : NLIScore) :
    voteFromScore thrCon thrEnt sc = "entail" ∨
    voteFromScore thrCon thrEnt sc = "contradict" ∨
    voteFromScore thrCon thrEnt sc = "neutral" := by
  rw [voteFromScore]
  split_ifs <;> simp

/-- Bumping a counter with one of the three labels grows the vote total
by exactly one. -/
lemma bumpVote_total (v : Votes) (s : String)
    (h : s = "entail" ∨ s = "contradict" ∨ s = "neutral") :
    (bumpVote v s).entail + (bumpVote v s).contradict + (bumpVote v s).neutral
      = v.entail + v.contradict + v.neutral + 1 := by
  rcases h with h | h | h <;> subst h <;> simp [bumpVote] <;> omega

/-- The verification loop adds one vote per passage to the running total. -/
lemma singleLoop_total (scoreFn : String → String → NLIScore)
    (thrCon thrEnt : ℚ) (query : String) :
    ∀ (ps : List Passage) (acc : Votes × List SingleDetail),
      (ps.foldl (singleStep scoreFn thrCon thrEnt query) acc).1.entail
        + (ps.foldl (singleStep scoreFn thrCon thrEnt query) acc).1.contradict
        + (ps.foldl (singleStep scoreFn thrCon thrEnt query) acc).1.neutral
      = acc.1.entail + acc.1.contradict + acc.1.neutral + ps.length := by
  intro ps
  induction ps with
  | nil => intro acc; simp
  | cons p ps ih =>
    intro acc
    rw [List.foldl_cons, ih]
    simp only [singleStep, List.length_cons]
    have hb := bumpVote_total acc.1 (voteFromScore thrCon thrEnt (scoreFn p.text query))
      (voteFromScore_mem thrCon thrEnt (scoreFn p.text query))
    omega

/-- The verification loop appends exactly one detail record per passage,
in input order. -/
lemma singleLoop_details (scoreFn : String → String → NLIScore)
    (thrCon thrEnt : ℚ) (query : String) :
    ∀ (ps : List Passage) (acc : Votes × List SingleDetail),
      (ps.foldl (singleStep scoreFn thrCon thrEnt query) acc).2
        = acc.2 ++ ps.map (singleDetail scoreFn thrCon thrEnt query) := by
  intro ps
  induction ps with
  | nil => intro acc; simp
  | cons p ps ih =>
    intro acc
    rw [List.foldl_cons, ih]
    simp [singleStep, singleDetail]

/-- C3: single-mode verification — the three vote counters sum to the
number of passages; `conflict` holds exactly when both an entail vote
and a contradict vote exist; the strengths are the vote counts divided
by `max 1 total_passages`; and `details` contains exactly one record
per passage, ordered identically to the input passage order. -/
theorem analyzeSingle_invariants (scoreFn : String → String → NLIScore)
    (thrCon thrEnt : ℚ) (query : String) (passages : List Passage) :
    (analyzeSingle scoreFn thrCon thrEnt query passages).votes.entail
      + (analyzeSingle scoreFn thrCon thrEnt query passages).votes.contradict
      + (analyzeSingle scoreFn thrCon thrEnt query passages).votes.neutral
      = passages.length
  ∧ ((analyzeSingle scoreFn thrCon thrEnt query passages).conflict = true ↔
      0 < (analyzeSingle scoreFn thrCon thrEnt query passages).votes.entail ∧
      0 < (analyzeSingle scoreFn thrCon thrEnt query passages).votes.contradict)
  ∧ (analyzeSingle scoreFn thrCon thrEnt query passages).support_strength
      = ((analyzeSingle scoreFn thrCon thrEnt query passages).votes.entail : ℚ)
          / ((max 1 passages.length : ℕ) : ℚ)
  ∧ (analyzeSingle scoreFn thrCon thrEnt query passages).contradiction_strength
      = ((analyzeSingle scoreFn thrCon thrEnt query passages).votes.contradict : ℚ)
          / ((max 1 passages.length : ℕ) : ℚ)
  ∧ (analyzeSingle scoreFn thrCon thrEnt query passages).details
      = passages.map (singleDetail scoreFn thrCon thrEnt query)
  ∧ (analyzeSingle scoreFn thrCon thrEnt query passages).details.length
      = passages.length := by
  refine ⟨?_, ?_, rfl, rfl, ?_, ?_⟩
  · have h := singleLoop_total scoreFn thrCon thrEnt query passages (⟨0, 0, 0⟩, [])
    simpa [analyzeSingle] using h
  · simp [analyzeSingle]
  · have h := singleLoop_details scoreFn thrCon thrEnt query passages (⟨0, 0, 0⟩, [])
    simpa [analyzeSingle] using h
  · have h := singleLoop_details scoreFn thrCon thrEnt query passages (⟨0, 0, 0⟩, [])
    simp [analyzeSingle, h]

/-! ## Poison-injection infrastructure lemmas -/

lemma length_markAt {α : Type} (f : α → α) (l : List α) (i : Nat) :
    (markAt f l i).length = l.length := by
  unfold markAt
  split <;> simp

lemma length_applyIdxs {α : Type} (f : α → α) :
    ∀ (idxs : List Nat) (l : List α), (applyIdxs f l idxs).length = l.length := by
  intro idxs
  induction idxs with
  | nil => intro l; rfl
  | cons i rest ih =>
    intro l
    rw [applyIdxs, List.foldl_cons, ← applyIdxs, ih, length_markAt]

lemma getElem?_markAt_ne {α : Type} (f : α → α) (l : List α) {i j : Nat}
    (h : i ≠ j) : (markAt f l i)[j]? = l[j]? := by
  unfold markAt
  split
  · exact List.getElem?_set_ne h
  · rfl

lemma getElem?_markAt_self {α : Type} (f : α → α) (l : List α) (i : Nat) :
    (markAt f l i)[i]? = (l[i]?).map f := by
  unfold markAt
  split
  · rename_i p heq
    rw [List.getElem?_set_self', heq]
    rfl
  · rename_i heq
    rw [heq]
    rfl

lemma applyIdxs_getElem?_not_mem {α : Type} (f : α → α) :
    ∀ (idxs : List Nat) (l : List α) (j : Nat), j ∉ idxs →
      (applyIdxs f l idxs)[j]? = l[j]? := by
  intro idxs
  induction idxs with
  | nil => intro l j _; rfl
  | cons i rest ih =>
    intro l j hj
    rw [applyIdxs, List.foldl_cons, ← applyIdxs, ih _ _ (fun h => hj (List.mem_cons_of_mem i h)),
      getElem?_markAt_ne f l (fun h => hj (by rw [← h]; exact List.mem_cons_self i rest))]

lemma applyIdxs_getElem?_mem {α : Type} (f : α → α) :
    ∀ (idxs : List Nat) (l : List α) (j : Nat), idxs.Nodup → j ∈ idxs →
      (applyIdxs f l idxs)[j]? = (l[j]?).map f := by
  intro idxs
  induction idxs with
  | nil => intro l j _ hj; cases hj
  | cons i rest ih =>
    intro l j hnd hj
    have hnd' := List.nodup_cons.mp hnd
    rw [applyIdxs, List.foldl_cons, ← applyIdxs]
    rcases List.mem_cons.mp hj with hji | hjr
    · subst hji
      rw [applyIdxs_getElem?_not_mem f rest _ _ hnd'.1, getElem?_markAt_self]
    · rw [ih _ _ hnd'.2 hjr, getElem?_markAt_ne f l (fun h => hnd'.1 (by rw [h]; exact hjr))]

lemma countP_markAt_succ {α : Type} (f : α → α) (q : α → Bool) (l : List α)
    (i : Nat) (p : α) (heq : l[i]? = some p) (hp : q p = false)
    (hf : q (f p) = true) :
    (markAt f l i).countP q = l.countP q + 1 := by
  unfold markAt
  rw [heq]
  induction l generalizing i with
  | nil => simp at heq
  | cons x xs ih =>
    cases i with
    | zero =>
      simp only [List.getElem?_cons_zero, Option.some.injEq] at heq
      subst heq
      simp [List.countP_cons, hp, hf]
    | succ n =>
      simp only [List.getElem?_cons_succ] at heq
      simp only [List.set_cons_succ, List.countP_cons]
      rw [ih n heq]
      omega

lemma countP_applyIdxs {α : Type} (f : α → α) (q : α → Bool)
    (hf : ∀ a, q (f a) = true) :
    ∀ (idxs : List Nat) (l : List α), idxs.Nodup →
      (∀ i ∈ idxs, ∃ p, l[i]? = some p ∧ q p = false) →
      (applyIdxs f l idxs).countP q = l.countP q + idxs.length := by
  intro idxs
  induction idxs with
  | nil => intro l _ _; rfl
  | cons i rest ih =>
    intro l hnd hsel
    have hnd' := List.nodup_cons.mp hnd
    obtain ⟨p, hp, hqp⟩ := hsel i (List.mem_cons_self i rest)
    rw [applyIdxs, List.foldl_cons, ← applyIdxs]
    rw [ih (markAt f l i) hnd'.2 ?_]
    · rw [countP_markAt_succ f q l i p hp hqp (hf p)]
      simp
      omega
    · intro j hj
      obtain ⟨r, hr, hqr⟩ := hsel j (List.mem_cons_of_mem i hj)
      exact ⟨r, by rw [getElem?_markAt_ne f l (fun h => hnd'.1 (by rw [h]; exact hj))]; exact hr, hqr⟩

lemma sampleLo_length (s n k : Nat) (h : k ≤ n) : (sampleLo s n k).length = k := by
  simp [sampleLo, h]

lemma sampleLo_nodup (s n k : Nat) : (sampleLo s n k).Nodup :=
  (List.nodup_range n).sublist (List.take_sublist k (List.range n))

lemma sampleLo_mem (s n k i : Nat) (h : i ∈ sampleLo s n k) : i < n :=
  List.mem_range.mp ((List.take_sublist k (List.range n)).mem h)

lemma nPoison_floor_le (rate : ℚ) (n : Nat) (hr1 : rate ≤ 1) :
    Int.toNat ⌊(n : ℚ) * rate⌋ ≤ n := by
  have h1 : (n : ℚ) * rate ≤ (n : ℚ) := by
    calc (n : ℚ) * rate ≤ (n : ℚ) * 1 :=
          mul_le_mul_of_nonneg_left hr1 (by positivity)
    _ = (n : ℚ) := mul_one _
  have h2 : ⌊(n : ℚ) * rate⌋ ≤ (n : ℤ) := by
    calc ⌊(n : ℚ) * rate⌋ ≤ ⌊(n : ℚ)⌋ := Int.floor_le_floor h1
    _ = (n : ℤ) := Int.floor_natCast n
  exact Int.toNat_le.mpr h2

lemma nPoisonInject_le (rate : ℚ) (n : Nat) (hr1 : rate ≤ 1) (hn : 0 < n) :
    nPoisonInject rate n ≤ n :=
  max_le hn (nPoison_floor_le rate n hr1)

/-! ## Claim C5 (amended): poison-count formula uses truncation -/

/-- C5 amended: for `0 < r ≤ 1` and `N > 0`, `inject_synthetic_poison`
selects exactly `n = max(1, int(r * N))` distinct indices from `[0, N)`
(`int` truncates — the claim's `round` is wrong, see the counterexample),
exactly that many passages end up marked poisoned, the same seed and `N`
always yield the identical index set, and `apply_to_corpus` draws
`int(r * N)` indices with no lower bound of one. -/
theorem injectIdxs_count_floor (sample : Sampler) (rate : ℚ) (seed : Nat)
    (retrieved : List Passage)
    (hr0 : 0 < rate) (hr1 : rate ≤ 1) (hN : 0 < retrieved.length)
    (hlen : ∀ n k, k ≤ n → (sample seed n k).length = k)
    (hnd : ∀ n k, (sample seed n k).Nodup)
    (hmem : ∀ n k i, i ∈ sample seed n k → i < n) :
    (injectIdxs sample rate seed retrieved.length).length
        = max 1 (Int.toNat ⌊(retrieved.length : ℚ) * rate⌋)
  ∧ (injectIdxs sample rate seed retrieved.length).Nodup
  ∧ (∀ i ∈ injectIdxs sample rate seed retrieved.length, i < retrieved.length)
  ∧ (injectSyntheticPoison sample rate seed retrieved).countP isPoisonTrue
        = max 1 (Int.toNat ⌊(retrieved.length : ℚ) * rate⌋)
  ∧ (corpusIdxs sample rate seed retrieved.length).length
        = Int.toNat ⌊(retrieved.length : ℚ) * rate⌋
  ∧ (∀ other : List Passage, other.length = retrieved.length →
      injectIdxs sample rate seed other.length
        = injectIdxs sample rate seed retrieved.length) := by
  have hle : nPoisonInject rate retrieved.length ≤ retrieved.length :=
    nPoisonInject_le rate retrieved.length hr1 hN
  have hkI : max 0 (min (nPoisonInject rate retrieved.length) retrieved.length)
      = nPoisonInject rate retrieved.length := by omega
  have hidxlen : (injectIdxs sample rate seed retrieved.length).length
      = nPoisonInject rate retrieved.length := by
    rw [injectIdxs, hkI]
    exact hlen _ _ hle
  refine ⟨hidxlen, ?_, ?_, ?_, ?_, ?_⟩
  · exact hnd _ _
  · intro i hi
    exact hmem _ _ i hi
  · rw [injectSyntheticPoison]
    rw [List.length_map]
    rw [countP_applyIdxs injectTransform isPoisonTrue
      (fun a => by simp [isPoisonTrue, injectTransform])
      (injectIdxs sample rate seed retrieved.length)
      (retrieved.map fun p => { p with is_poison := some (PVal.pbool false) })
      (hnd _ _) ?_, hidxlen]
    · have h0 : (retrieved.map fun p =>
          { p with is_poison := some (PVal.pbool false) }).countP isPoisonTrue = 0 := by
        rw [List.countP_eq_zero]
        intro a ha
        obtain ⟨r, _, hr⟩ := List.mem_map.mp ha
        subst hr
        simp [isPoisonTrue]
      rw [h0, Nat.zero_add, nPoisonInject]
    · intro i hi
      have hilt : i < retrieved.length := hmem _ _ i hi
      refine ⟨{ retrieved[i] with is_poison := some (PVal.pbool false) }, ?_, ?_⟩
      · rw [List.getElem?_map, List.getElem?_eq_getElem hilt]
        rfl
      · simp [isPoisonTrue]
  · have hleC : nPoisonCorpus rate retrieved.length ≤ retrieved.length :=
      nPoison_floor_le rate retrieved.length hr1
    have hkC : max 0 (min (nPoisonCorpus rate retrieved.length) retrieved.length)
        = nPoisonCorpus rate retrieved.length := by omega
    rw [corpusIdxs, hkC]
    exact hlen _ _ hleC
  · intro other hlen'
    rw [hlen']

/-- C5 counterexample: with 7 passages and rate 1/2 the code draws
`max(1, int(3.5)) = 3` indices, while the claimed formula
`max(1, round(3.5))` gives 4 — the claim's `round` does not match the
code's truncation. -/
theorem injectIdxs_count_not_round_cex :
    (injectIdxs sampleLo (1/2) 7 (List.replicate 7 pA).length).length = 3
  ∧ max 1 (Int.toNat (round (((List.replicate 7 pA).length : ℚ) * (1/2)))) = 4 := by
  constructor
  · have h7 : (List.replicate 7 pA).length = 7 := by simp
    rw [h7, injectIdxs, nPoisonInject]
    have hf : ⌊((7 : ℕ) : ℚ) * (1/2)⌋ = (3 : ℤ) := by norm_num
    rw [hf]
    decide
  · have h7 : (List.replicate 7 pA).length = 7 := by simp
    rw [h7]
    have hr4 : round (((7 : ℕ) : ℚ) * (1/2)) = (4 : ℤ) := by
      rw [round_eq]
      norm_num
    rw [hr4]
    decide

/-- C5 witness: the amended count formula at the spec's own example —
`rate=0.3, N=10, seed=7` poisons exactly 3 passages. -/
theorem injectIdxs_count_floor_witness :
    (injectSyntheticPoison sampleLo (3/10) 7 (List.replicate 10 pA)).countP
      isPoisonTrue = 3 := by
  have h := (injectIdxs_count_floor sampleLo (3/10) 7 (List.replicate 10 pA)
    (by norm_num) (by norm_num) (by simp)
    (fun n k hk => sampleLo_length 7 n k hk)
    (fun n k => sampleLo_nodup 7 n k)
    (fun n k i hi => sampleLo_mem 7 n k i hi)).2.2.2.1
  rw [h]
  have h10 : (List.replicate 10 pA).length = 10 := by simp
  rw [h10]
  have hf : ⌊((10 : ℕ) : ℚ) * (3/10)⌋ = (3 : ℤ) := by norm_num
  rw [hf]
  decide

/-! ## Claim C6: unknown poisoning strategy is a silent pass-through -/

/-- C6 (code evidence): `Poisoner.apply` with the unknown strategy
`"backdoor"` and a positive rate silently returns the input passages
unchanged — no `ConfigurationError` exists anywhere in the code base,
and neither the constructor nor `apply` validates the strategy. -/
theorem poisonerApply_unknown_strategy_silent :
    poisonerApply sampleLo "backdoor" (1/2) 7 [pA, pB] = [pA, pB] := by
  rw [poisonerApply, if_neg (by norm_num), if_neg (by decide)]

/-! ## Claim C7 (amended): unselected passages keep all fields except
`is_poison`, which is unconditionally normalized to boolean `False` -/

/-- C7 amended: for rate `r > 0`, every passage at an index outside the
selected poison set appears in the output with every field identical to
the input except `is_poison`, which `inject_synthetic_poison`
unconditionally sets to the boolean `False` on all passages (the
`dict(p, is_poison=False)` copy) — so unselected passages are not
field-for-field identical whenever their input `is_poison` field was
absent or not `False`. -/
theorem inject_unselected_normalized (sample : Sampler) (rate : ℚ)
    (seed : Nat) (retrieved : List Passage) (j : Nat) (hr : 0 < rate)
    (hj : j ∉ injectIdxs sample rate seed retrieved.length) :
    (injectSyntheticPoison sample rate seed retrieved)[j]?
      = (retrieved[j]?).map
          (fun p => { p with is_poison := some (PVal.pbool false) }) := by
  rw [injectSyntheticPoison, List.length_map,
    applyIdxs_getElem?_not_mem injectTransform _ _ _ hj, List.getElem?_map]

/-- C7 counterexample: the claim as stated is false — with two clean
passages and rate 1/2 only index 0 is selected, yet the output at the
unselected index 1 is not the input passage (its `is_poison` field has
been added and set to `False`). -/
theorem inject_unselected_changed_cex :
    (injectSyntheticPoison sampleLo (1/2) 7 [pA, pB])[1]? ≠ some pB := by
  have hf : ⌊((2 : ℕ) : ℚ) * (1/2)⌋ = (1 : ℤ) := by norm_num
  have hidx : injectIdxs sampleLo (1/2) 7 2 = [0] := by
    rw [injectIdxs, nPoisonInject, hf]
    decide
  rw [injectSyntheticPoison, List.length_map]
  have h2 : ([pA, pB] : List Passage).length = 2 := rfl
  rw [h2, hidx]
  decide

/-- C7 witness: the amended statement at a concrete input — the
unselected passage comes back equal to the input with `is_poison`
set to boolean `False`. -/
theorem inject_unselected_normalized_witness :
    (injectSyntheticPoison sampleLo (1/2) 7 [pA, pB])[1]?
      = some { pB with is_poison := some (PVal.pbool false) } := by
  have hf : ⌊((2 : ℕ) : ℚ) * (1/2)⌋ = (1 : ℤ) := by norm_num
  have hidx : injectIdxs sampleLo (1/2) 7 2 = [0] := by
    rw [injectIdxs, nPoisonInject, hf]
    decide
  have hj : (1 : Nat) ∉ injectIdxs sampleLo (1/2) 7 ([pA, pB] : List Passage).length := by
    have h2 : ([pA, pB] : List Passage).length = 2 := rfl
    rw [h2, hidx]
    decide
  rw [inject_unselected_normalized sampleLo (1/2) 7 [pA, pB] 1 (by norm_num) hj]
  rfl

/-! ## Claim C10: the two poisoning application points mark passages
differently -/

/-- C10: for every selected index, retrieval-set poisoning
(`inject_synthetic_poison`) sets `is_poison` to the boolean `True` and
`source` to the string `"poison"`, whereas corpus-level poisoning
(`Poisoner.apply_to_corpus`) sets `is_poison` to the string `"1"` and
never touches the `source` field. -/
theorem poison_markers_differ (sample : Sampler) (rate : ℚ) (seed : Nat)
    (corpus : List Passage) (j : Nat) (hr : 0 < rate)
    (hndI : (injectIdxs sample rate seed corpus.length).Nodup)
    (hjI : j ∈ injectIdxs sample rate seed corpus.length)
    (hndC : (corpusIdxs sample rate seed corpus.length).Nodup)
    (hjC : j ∈ corpusIdxs sample rate seed corpus.length) :
    (injectSyntheticPoison sample rate seed corpus)[j]?
      = (corpus[j]?).map (fun p =>
          { p with text := make_contradictory_passage p.text
                   is_poison := some (PVal.pbool true)
                   source := some "poison"
                   doc_id := p.doc_id ++ "__POISON" })
  ∧ (poisonerApplyToCorpus sample rate seed corpus)[j]?
      = (corpus[j]?).map corpusTransform
  ∧ (∀ p, (corpusTransform p).source = p.source)
  ∧ (∀ p, (corpusTransform p).is_poison = some (PVal.pstr "1"))
  ∧ (∀ p, (injectTransform p).is_poison = some (PVal.pbool true)) := by
  refine ⟨?_, ?_, fun p => rfl, fun p => rfl, fun p => rfl⟩
  · rw [injectSyntheticPoison, List.length_map,
      applyIdxs_getElem?_mem injectTransform _ _ _ hndI hjI, List.getElem?_map,
      Option.map_map]
    cases corpus[j]? <;> rfl
  · rw [poisonerApplyToCorpus, if_neg (not_le.mpr hr),
      applyIdxs_getElem?_mem corpusTransform _ _ _ hndC hjC]

/-- C10 witness: both application points evaluated at the selected
index 0 of a concrete two-passage corpus. -/
theorem poison_markers_differ_witness :
    (injectSyntheticPoison sampleLo (1/2) 7 [pA, pB])[0]?
      = some (injectTransform pA)
  ∧ (poisonerApplyToCorpus sampleLo (1/2) 7 [pA, pB])[0]?
      = some (corpusTransform pA) := by
  have hf : ⌊((2 : ℕ) : ℚ) * (1/2)⌋ = (1 : ℤ) := by norm_num
  have h2 : ([pA, pB] : List Passage).length = 2 := rfl
  have hidxI : injectIdxs sampleLo (1/2) 7 ([pA, pB] : List Passage).length = [0] := by
    rw [h2, injectIdxs, nPoisonInject, hf]
    decide
  have hidxC : corpusIdxs sampleLo (1/2) 7 ([pA, pB] : List Passage).length = [0] := by
    rw [h2, corpusIdxs, nPoisonCorpus, hf]
    decide
  have h := poison_markers_differ sampleLo (1/2) 7 [pA, pB] 0 (by norm_num)
    (by rw [hidxI]; decide) (by rw [hidxI]; decide)
    (by rw [hidxC]; decide) (by rw [hidxC]; decide)
  exact ⟨by rw [h.1]; rfl, by rw [h.2.1]; rfl⟩

/-! ## Claim C4: Evidence Fusion lemmas -/

lemma lookupB_updateBest (m : List Entry) (sp : ℚ × Passage) (ke : Key) :
    lookupB ke (updateBest m sp) =
      if keyOf sp.2 = ke then
        match lookupB ke m with
        | none => some sp
        | some y => if sp.1 > y.1 then some sp else some y
      else lookupB ke m := by
  induction m with
  | nil =>
    by_cases h : keyOf sp.2 = ke <;> simp [updateBest, lookupB, h]
  | cons e rest ih =>
    rw [updateBest]
    by_cases he : e.1 = keyOf sp.2
    · rw [if_pos he]
      by_cases hk : keyOf sp.2 = ke
      · have hek : e.1 = ke := he.trans hk
        by_cases hs : sp.1 > e.2.1
        · rw [if_pos hs]
          simp [lookupB, hek, hk, hs]
        · rw [if_neg hs]
          simp [lookupB, hek, hk, hs]
      · have hne : e.1 ≠ ke := by rw [he]; exact hk
        by_cases hs : sp.1 > e.2.1
        · rw [if_pos hs]
          simp [lookupB, hne, hk]
        · rw [if_neg hs]
          simp [lookupB, hne, hk]
    · rw [if_neg he]
      by_cases hek : e.1 = ke
      · have hk : keyOf sp.2 ≠ ke := by rw [← hek]; exact fun h => he h.symm
        simp [lookupB, hek, hk]
      · simp [lookupB, hek, ih]

lemma lookupB_buildBest (ke : Key) (scored : List (ℚ × Passage)) :
    lookupB ke (buildBest scored) = bestOf ke scored := by
  induction scored using List.reverseRecOn with
  | nil => rfl
  | append_singleton sc x ih =>
    have hb : buildBest (sc ++ [x]) = updateBest (buildBest sc) x := by
      rw [buildBest, buildBest, List.foldl_append, List.foldl_cons, List.foldl_nil]
    have ho : bestOf ke (sc ++ [x])
        = if keyOf x.2 = ke then
            match bestOf ke sc with
            | none => some x
            | some y => if x.1 > y.1 then some x else some y
          else bestOf ke sc := by
      rw [bestOf, bestOf, List.foldl_append, List.foldl_cons, List.foldl_nil]
    rw [hb, lookupB_updateBest, ih, ho]

lemma keysOf_updateBest (m : List Entry) (sp : ℚ × Passage) :
    keysOf (updateBest m sp)
      = if keyOf sp.2 ∈ keysOf m then keysOf m else keysOf m ++ [keyOf sp.2] := by
  induction m with
  | nil => simp [updateBest, keysOf]
  | cons e rest ih =>
    rw [updateBest]
    by_cases he : e.1 = keyOf sp.2
    · rw [if_pos he]
      have hmem : keyOf sp.2 ∈ keysOf (e :: rest) := by
        rw [← he]
        simp [keysOf]
      rw [if_pos hmem]
      by_cases hs : sp.1 > e.2.1
      · rw [if_pos hs]
        simp [keysOf]
      · rw [if_neg hs]
    · rw [if_neg he]
      have hne : keyOf sp.2 ≠ e.1 := fun h => he h.symm
      have hcons : keysOf (e :: updateBest rest sp)
          = e.1 :: keysOf (updateBest rest sp) := by
        simp [keysOf]
      have hcons2 : keysOf (e :: rest) = e.1 :: keysOf rest := by
        simp [keysOf]
      rw [hcons, ih, hcons2]
      by_cases hm : keyOf sp.2 ∈ keysOf rest
      · rw [if_pos hm, if_pos (List.mem_cons_of_mem e.1 hm)]
      · rw [if_neg hm, if_neg ?_]
        · simp
        · intro h
          rcases List.mem_cons.mp h with h1 | h1
          · exact hne h1
          · exact hm h1

lemma nodup_keysOf_buildBest (scored : List (ℚ × Passage)) :
    (keysOf (buildBest scored)).Nodup := by
  suffices h : ∀ (sc : List (ℚ × Passage)) (m : List Entry), (keysOf m).Nodup →
      (keysOf (sc.foldl updateBest m)).Nodup by
    exact h scored [] (by simp [keysOf])
  intro sc
  induction sc with
  | nil => intro m hm; exact hm
  | cons x sc ih =>
    intro m hm
    rw [List.foldl_cons]
    refine ih _ ?_
    rw [keysOf_updateBest]
    by_cases hmem : keyOf x.2 ∈ keysOf m
    · rw [if_pos hmem]
      exact hm
    · rw [if_neg hmem]
      simp [List.nodup_append, hm, hmem]

lemma mem_keysOf_buildBest (ke : Key) (scored : List (ℚ × Passage)) :
    ke ∈ keysOf (buildBest scored) ↔ ke ∈ scored.map (fun sp => keyOf sp.2) := by
  suffices h : ∀ (sc : List (ℚ × Passage)) (m : List Entry),
      ke ∈ keysOf (sc.foldl updateBest m) ↔
        ke ∈ keysOf m ∨ ke ∈ sc.map (fun sp => keyOf sp.2) by
    have h2 := h scored []
    simpa [keysOf] using h2
  intro sc
  induction sc with
  | nil => intro m; simp
  | cons x sc ih =>
    intro m
    rw [List.foldl_cons, ih]
    have hup : ke ∈ keysOf (updateBest m x) ↔ ke ∈ keysOf m ∨ ke = keyOf x.2 := by
      rw [keysOf_updateBest]
      by_cases hmem : keyOf x.2 ∈ keysOf m
      · rw [if_pos hmem]
        constructor
        · exact Or.inl
        · rintro (h | h)
          · exact h
          · rw [h]
            exact hmem
      · rw [if_neg hmem]
        simp
    rw [hup]
    simp only [List.map_cons, List.mem_cons]
    tauto

lemma entryKey_updateBest (m : List Entry) (sp : ℚ × Passage)
    (h : ∀ e ∈ m, e.1 = keyOf e.2.2) :
    ∀ e ∈ updateBest m sp, e.1 = keyOf e.2.2 := by
  induction m with
  | nil =>
    intro e he
    rw [updateBest] at he
    simp only [List.mem_singleton] at he
    subst he
    rfl
  | cons x rest ih =>
    intro e he
    rw [updateBest] at he
    by_cases hx : x.1 = keyOf sp.2
    · rw [if_pos hx] at he
      by_cases hs : sp.1 > x.2.1
      · rw [if_pos hs] at he
        rcases List.mem_cons.mp he with h1 | h1
        · subst h1
          exact hx
        · exact h e (List.mem_cons_of_mem x h1)
      · rw [if_neg hs] at he
        exact h e he
    · rw [if_neg hx] at he
      rcases List.mem_cons.mp he with h1 | h1
      · rw [h1]
        exact h x (List.mem_cons_self x rest)
      · exact ih (fun e' he' => h e' (List.mem_cons_of_mem x he')) e h1

lemma entryKey_buildBest (scored : List (ℚ × Passage)) :
    ∀ e ∈ buildBest scored, e.1 = keyOf e.2.2 := by
  suffices h : ∀ (sc : List (ℚ × Passage)) (m : List Entry),
      (∀ e ∈ m, e.1 = keyOf e.2.2) → ∀ e ∈ sc.foldl updateBest m, e.1 = keyOf e.2.2 by
    exact h scored [] (by simp)
  intro sc
  induction sc with
  | nil => intro m hm; exact hm
  | cons x sc ih =>
    intro m hm
    rw [List.foldl_cons]
    exact ih _ (entryKey_updateBest m x hm)

lemma lookupB_of_mem (m : List Entry) (hnd : (keysOf m).Nodup) (e : Entry)
    (he : e ∈ m) : lookupB e.1 m = some e.2 := by
  induction m with
  | nil => cases he
  | cons x rest ih =>
    have hnd' : x.1 ∉ keysOf rest ∧ (keysOf rest).Nodup := by
      rw [keysOf, List.map_cons, List.nodup_cons] at hnd
      exact hnd
    rcases List.mem_cons.mp he with h1 | h1
    · subst h1
      simp [lookupB]
    · have hx : x.1 ≠ e.1 := by
        intro hcontra
        exact hnd'.1 (hcontra ▸ List.mem_map_of_mem Prod.fst h1)
      rw [lookupB, if_neg hx]
      exact ih hnd'.2 h1

lemma bestOf_map_fst (ke : Key) (scored : List (ℚ × Passage)) :
    (bestOf ke scored).map Prod.fst = maxScores (keyScores ke scored) := by
  suffices h : ∀ (sc : List (ℚ × Passage)) (acc : Option (ℚ × Passage)),
      (sc.foldl
        (fun acc sp =>
          if keyOf sp.2 = ke then
            match acc with
            | none => some sp
            | some y => if sp.1 > y.1 then some sp else some y
          else acc) acc).map Prod.fst
      = (keyScores ke sc).foldl
          (fun acc s =>
            match acc with
            | none => some s
            | some b => some (max b s)) (acc.map Prod.fst) by
    exact h scored none
  intro sc
  induction sc with
  | nil => intro acc; simp [keyScores]
  | cons x sc ih =>
    intro acc
    rw [List.foldl_cons]
    by_cases hx : keyOf x.2 = ke
    · have hks : keyScores ke (x :: sc) = x.1 :: keyScores ke sc := by
        simp [keyScores, hx]
      rw [hks, List.foldl_cons, ih]
      have hstep :
          ((if keyOf x.2 = ke then
              match acc with
              | none => some x
              | some y => if x.1 > y.1 then some x else some y
            else acc) : Option (ℚ × Passage)).map Prod.fst
          = (match acc.map Prod.fst with
             | none => some x.1
             | some b => some (max b x.1)) := by
        rw [if_pos hx]
        cases acc with
        | none => rfl
        | some y =>
          show Option.map Prod.fst (if x.1 > y.1 then some x else some y)
              = some (max y.1 x.1)
          by_cases hs : x.1 > y.1
          · rw [if_pos hs, max_eq_right (le_of_lt hs)]
            rfl
          · rw [if_neg hs, max_eq_left (not_lt.mp hs)]
            rfl
      rw [hstep]
    · have hks : keyScores ke (x :: sc) = keyScores ke sc := by
        simp [keyScores, hx]
      rw [hks, ih]
      have hstep :
          ((if keyOf x.2 = ke then
              match acc with
              | none => some x
              | some y => if x.1 > y.1 then some x else some y
            else acc) : Option (ℚ × Passage)) = acc := by
        rw [if_neg hx]
      rw [hstep]

lemma perm_insertDesc (x : Entry) :
    ∀ (l : List Entry), List.Perm (insertDesc x l) (x :: l) := by
  intro l
  induction l with
  | nil => exact List.Perm.refl _
  | cons y ys ih =>
    rw [insertDesc]
    by_cases h : y.2.1 ≤ x.2.1
    · rw [if_pos h]
    · rw [if_neg h]
      exact (ih.cons y).trans (List.Perm.swap x y ys)

lemma perm_sortDesc : ∀ (l : List Entry), List.Perm (sortDesc l) l := by
  intro l
  induction l with
  | nil => exact List.Perm.refl _
  | cons a l ih =>
    have h1 : sortDesc (a :: l) = insertDesc a (sortDesc l) := rfl
    rw [h1]
    exact (perm_insertDesc a (sortDesc l)).trans (ih.cons a)

lemma pairwise_insertDesc (x : Entry) (l : List Entry)
    (h : l.Pairwise (fun a b => b.2.1 ≤ a.2.1)) :
    (insertDesc x l).Pairwise (fun a b => b.2.1 ≤ a.2.1) := by
  induction l with
  | nil => simp [insertDesc]
  | cons y ys ih =>
    rw [insertDesc]
    have h' := List.pairwise_cons.mp h
    by_cases hc : y.2.1 ≤ x.2.1
    · rw [if_pos hc]
      refine List.Pairwise.cons ?_ h
      intro b hb
      rcases List.mem_cons.mp hb with h1 | h1
      · subst h1
        exact hc
      · exact le_trans (h'.1 b h1) hc
    · rw [if_neg hc]
      refine List.Pairwise.cons ?_ (ih h'.2)
      intro b hb
      have hb' := (perm_insertDesc x ys).mem_iff.mp hb
      rcases List.mem_cons.mp hb' with h1 | h1
      · subst h1
        exact le_of_lt (not_le.mp hc)
      · exact h'.1 b h1

lemma pairwise_sortDesc (l : List Entry) :
    (sortDesc l).Pairwise (fun a b => b.2.1 ≤ a.2.1) := by
  induction l with
  | nil => simp [sortDesc]
  | cons a l ih =>
    have h1 : sortDesc (a :: l) = insertDesc a (sortDesc l) := rfl
    rw [h1]
    exact pairwise_insertDesc a (sortDesc l) ih

/-- C4: Evidence Fusion — in the fused output each composite key
`(title, sent_id, text)` occurs at most once; the score attached to
each output passage equals the maximum score its key received across
all scored inputs; the list is sorted descending by score; its length
is at most `k`; and when the number of distinct keys is at most `k`,
every input key appears in the output (all unique passages are
returned when fewer than `k` exist). -/
theorem fuse_dedup_max_sorted (scored : List (ℚ × Passage)) (k : Nat) :
    ((fuse scored k).map keyOf).Nodup
  ∧ (∀ q ∈ fuse scored k, q.score = maxScores (keyScores (keyOf q) scored))
  ∧ (fuse scored k).Pairwise (fun a b => b.score.getD 0 ≤ a.score.getD 0)
  ∧ (fuse scored k).length ≤ k
  ∧ ((scored.map fun sp => keyOf sp.2).dedup.length ≤ k →
      ∀ sp ∈ scored, keyOf sp.2 ∈ (fuse scored k).map keyOf) := by
  have hkeyB := entryKey_buildBest scored
  have hndB := nodup_keysOf_buildBest scored
  have hsubM : ∀ e ∈ (sortDesc (buildBest scored)).take k, e ∈ buildBest scored := by
    intro e he
    exact (perm_sortDesc (buildBest scored)).mem_iff.mp
      ((List.take_sublist k _).subset he)
  have hmapkey : (fuse scored k).map keyOf
      = ((sortDesc (buildBest scored)).take k).map Prod.fst := by
    rw [fuse, List.map_map]
    exact List.map_congr_left fun e he => (hkeyB e (hsubM e he)).symm
  have hndsort : ((sortDesc (buildBest scored)).map Prod.fst).Nodup :=
    ((perm_sortDesc _).map Prod.fst).symm.nodup hndB
  refine ⟨?_, ?_, ?_, ?_, ?_⟩
  · rw [hmapkey, List.map_take]
    exact hndsort.sublist (List.take_sublist k _)
  · intro q hq
    rw [fuse] at hq
    obtain ⟨e, heM, hqe⟩ := List.mem_map.mp hq
    have heB := hsubM e heM
    have hl : lookupB e.1 (buildBest scored) = some e.2 :=
      lookupB_of_mem _ hndB e heB
    have hbo : bestOf e.1 scored = some e.2 :=
      (lookupB_buildBest e.1 scored).symm.trans hl
    have hmax : maxScores (keyScores e.1 scored) = some e.2.1 := by
      rw [← bestOf_map_fst, hbo]
      rfl
    have hkq : keyOf q = e.1 := by
      rw [← hqe]
      exact (hkeyB e heB).symm
    rw [hkq, hmax, ← hqe]
    rfl
  · rw [fuse]
    refine List.pairwise_map.mpr ?_
    have hp := (pairwise_sortDesc (buildBest scored)).sublist (List.take_sublist k _)
    exact hp.imp fun h => h
  · rw [fuse, List.length_map]
    exact List.length_take_le _ _
  · intro hk sp hsp
    have hkm : keyOf sp.2 ∈ keysOf (buildBest scored) :=
      (mem_keysOf_buildBest _ scored).mpr (List.mem_map_of_mem _ hsp)
    have hperm : List.Perm (keysOf (buildBest scored))
        ((scored.map fun sp => keyOf sp.2).dedup) :=
      (List.perm_ext_iff_of_nodup hndB (List.nodup_dedup _)).mpr
        (fun a => by rw [List.mem_dedup]; exact mem_keysOf_buildBest a scored)
    have hBlen : (sortDesc (buildBest scored)).length ≤ k := by
      rw [(perm_sortDesc _).length_eq]
      have hlm : (buildBest scored).length = (keysOf (buildBest scored)).length :=
        (List.length_map _ _).symm
      rw [hlm, hperm.length_eq]
      exact hk
    have htake : (sortDesc (buildBest scored)).take k = sortDesc (buildBest scored) :=
      List.take_of_length_le hBlen
    rw [hmapkey, htake]
    exact ((perm_sortDesc _).map Prod.fst).symm.mem_iff.mp hkm

/-- C4 witness: fusing a concrete three-entry scored list (one key
duplicated) with limit 2 — the output keys are distinct, at most two
passages are returned, and both input keys survive. -/
theorem fuse_dedup_max_sorted_witness :
    ((fuse scoredEx 2).map keyOf).Nodup
  ∧ (fuse scoredEx 2).length ≤ 2
  ∧ keyOf pB ∈ (fuse scoredEx 2).map keyOf := by
  have h := fuse_dedup_max_sorted scoredEx 2
  refine ⟨h.1, h.2.2.2.1, ?_⟩
  have hmem : ((3 : ℚ), pB) ∈ scoredEx := by
    show ((3 : ℚ), pB) ∈ [(2, pA), (5, pA), (3, pB)]
    exact List.mem_cons_of_mem _ (List.mem_cons_of_mem _ (List.mem_cons_self _ _))
  have hdedup : ((scoredEx.map fun sp => keyOf sp.2).dedup.length ≤ 2) := by
    show (([(2, pA), (5, pA), (3, pB)] : List (ℚ × Passage)).map
        fun sp => keyOf sp.2).dedup.length ≤ 2
    simp [keyOf, pA, pB]
  exact h.2.2.2.2 hdedup ((3 : ℚ), pB) hmem

end RagTrust
